import Mathlib

/-!
# Verification of `Lab_2_4_LR2.py` (LinearRegressor)

Shallow embedding of the linear-regression lab over exact rationals:
matrices are Mathlib matrices over `ℚ`, numpy exceptions become
`Except String`, and the IEEE non-finite results of an unguarded
division by zero become `Option.none`.

Source functions embedded here:
* `fit` (method dispatch, bias column) → `fit`
* `fit_multiple` (normal equation)     → `fit_multiple`
* `fit_gradient_descent`               → `gdRun` / `fit_gradient_descent`
* `predict`                            → `predict`, `predict1`
* `evaluate_regression`                → `evaluate_regression`
* `one_hot_encode`                     → `one_hot_encode`
-/

open Matrix

/-- Model state of `LinearRegressor`: `self.intercept` and
`self.coefficients`, both `None` before fitting. -/
structure Model (n : ℕ) where
  intercept : Option ℚ
  coefficients : Option (Fin n → ℚ)

/-- Embeds `np.insert(X, 0, 1, axis=1)`: prepend a constant-1 bias column. -/
def addBias {m n : ℕ} (X : Matrix (Fin m) (Fin n) ℚ) :
    Matrix (Fin m) (Fin (n + 1)) ℚ :=
  fun i => Matrix.vecCons 1 (X i)

/-- Embeds `np.linalg.inv`: raises `LinAlgError` on a singular matrix, otherwise
returns the inverse (over `ℚ`, computed as `det⁻¹ • adjugate`). -/
def npLinalgInv {k : ℕ} (A : Matrix (Fin k) (Fin k) ℚ) :
    Except String (Matrix (Fin k) (Fin k) ℚ) :=
  if A.det = 0 then Except.error "Singular matrix" else
    Except.ok (A.det⁻¹ • A.adjugate)

/-- Embeds `fit_multiple`: `theta = np.linalg.inv(X.T.dot(X)).dot(X.T).dot(y)`;
`intercept = theta[0]`, `coefficients = theta[1:]`.  `X` already carries
the bias column.  The `np.linalg.inv` failure propagates. -/
def fit_multiple {m n : ℕ} (X : Matrix (Fin m) (Fin (n + 1)) ℚ)
    (y : Fin m → ℚ) : Except String (ℚ × (Fin n → ℚ)) :=
  (npLinalgInv (Xᵀ * X)).map (fun inv =>
    let theta := (inv * Xᵀ) *ᵥ y
    (theta 0, fun i => theta i.succ))

/-- The mutable state of `fit_gradient_descent`'s loop: `self.intercept`
and `self.coefficients` (the latter of length `X.shape[1] - 1 = n`). -/
structure GDState (n : ℕ) where
  intercept : ℚ
  coefficients : Fin n → ℚ

/-- Embeds `np.r_[self.intercept, self.coefficients]`. -/
def GDState.params {n : ℕ} (s : GDState n) : Fin (n + 1) → ℚ :=
  Matrix.vecCons s.intercept s.coefficients

/-- Embeds `error = X.dot(np.r_[intercept, coefficients]) - y` for state `s`. -/
def gdError {m n : ℕ} (X : Matrix (Fin m) (Fin (n + 1)) ℚ)
    (y : Fin m → ℚ) (s : GDState n) : Fin m → ℚ :=
  X *ᵥ s.params - y

/-- Embeds `mse = np.mean(error ** 2)` of the error vector of state `s`. -/
def gdMse {m n : ℕ} (X : Matrix (Fin m) (Fin (n + 1)) ℚ)
    (y : Fin m → ℚ) (s : GDState n) : ℚ :=
  (∑ i, gdError X y s i ^ 2) / m

/-- One loop body of `fit_gradient_descent`:
`gradients = (2 / m) * X.T.dot(error)`;
`intercept -= learning_rate * gradients[0]`;
`coefficients -= learning_rate * gradients[1:]` (with `m = len(y)`). -/
def gdUpdate {m n : ℕ} (X : Matrix (Fin m) (Fin (n + 1)) ℚ)
    (y : Fin m → ℚ) (learning_rate : ℚ) (s : GDState n) : GDState n :=
  let gradients : Fin (n + 1) → ℚ := fun j => 2 / m * (Xᵀ *ᵥ gdError X y s) j
  { intercept := s.intercept - learning_rate * gradients 0
    coefficients := fun i => s.coefficients i - learning_rate * gradients i.succ }

/-- The `for epoch in range(iterations)` loop of `fit_gradient_descent`,
run from state `s`: returns the final state together with
`(loss_history, w_history)` collected in iteration order.  Each iteration
records the post-update snapshot `[intercept, *coefficients]` in
`w_history` and the pre-update state's `mse` in `loss_history`.
(The `print` every 100 epochs is I/O only and is not modelled.) -/
def gdRun {m n : ℕ} (X : Matrix (Fin m) (Fin (n + 1)) ℚ) (y : Fin m → ℚ)
    (learning_rate : ℚ) :
    ℕ → GDState n → GDState n × List ℚ × List (Fin (n + 1) → ℚ)
  | 0, s => (s, [], [])
  | k + 1, s =>
    let s' := gdUpdate X y learning_rate s
    let rest := gdRun X y learning_rate k s'
    (rest.1, gdMse X y s :: rest.2.1, s'.params :: rest.2.2)

/-- Embeds `fit_gradient_descent`'s return value `(loss_history, w_history)`.
The random initialisation `np.random.rand(...) * 0.01` is modelled by the
explicit initial state `s0`. -/
def fit_gradient_descent {m n : ℕ} (X : Matrix (Fin m) (Fin (n + 1)) ℚ)
    (y : Fin m → ℚ) (learning_rate : ℚ) (iterations : ℕ) (s0 : GDState n) :
    List ℚ × List (Fin (n + 1) → ℚ) :=
  (gdRun X y learning_rate iterations s0).2

/-- Embeds `fit`: validates the method tag (raising `ValueError` before any
computation), prepends the bias column and dispatches.  State-passing
embedding: the first component is the model state after the call (the
prior `model` whenever an exception is raised, since the source raises
before any assignment to `self`), the second the returned value —
`none` for least squares, the histories for gradient descent.  `s0`
stands for the random initialisation drawn inside
`fit_gradient_descent`. -/
def fit {m n : ℕ} (method : String) (X : Matrix (Fin m) (Fin n) ℚ)
    (y : Fin m → ℚ) (learning_rate : ℚ) (iterations : ℕ) (s0 : GDState n)
    (model : Model n) :
    Model n × Except String (Option (List ℚ × List (Fin (n + 1) → ℚ))) :=
  if method ∉ ["least_squares", "gradient_descent"] then
    (model, Except.error ("Method " ++ method ++
      " not available for training linear regression."))
  else
    let X_with_bias := addBias X
    if method = "least_squares" then
      match fit_multiple X_with_bias y with
      | Except.error e => (model, Except.error e)
      | Except.ok bw =>
        ({ intercept := some bw.1, coefficients := some bw.2 },
         Except.ok none)
    else
      let run := gdRun X_with_bias y learning_rate iterations s0
      ({ intercept := some run.1.intercept,
         coefficients := some run.1.coefficients },
       Except.ok (some run.2))

/-- Embeds `predict` on a 2D input: checks the model is fitted, prepends a bias
column and computes `X_b.dot(np.r_[intercept, coefficients])`. -/
def predict {m n : ℕ} (model : Model n) (X : Matrix (Fin m) (Fin n) ℚ) :
    Except String (Fin m → ℚ) :=
  match model.intercept, model.coefficients with
  | some b, some w => Except.ok (addBias X *ᵥ Matrix.vecCons b w)
  | _, _ => Except.error "Model is not yet fitted"

/-- Embeds `X.reshape(-1, 1)`: a 1D vector as a single-column matrix. -/
def reshapeCol {m : ℕ} (x : Fin m → ℚ) : Matrix (Fin m) (Fin 1) ℚ :=
  fun i _ => x i

/-- Embeds `predict` on a 1D input: the `np.ndim(X) == 1` branch reshapes to a
column matrix and performs the same computation. -/
def predict1 {m : ℕ} (model : Model 1) (x : Fin m → ℚ) :
    Except String (Fin m → ℚ) :=
  match model.intercept, model.coefficients with
  | some b, some w =>
    Except.ok (addBias (reshapeCol x) *ᵥ Matrix.vecCons b w)
  | _, _ => Except.error "Model is not yet fitted"

/-- Embeds `np.mean` of a vector of length `k` (claims never evaluate it at
`k = 0`). -/
def npMean {k : ℕ} (v : Fin k → ℚ) : ℚ :=
  (∑ i, v i) / k

/-- Embeds `ss_total = np.sum((y_true - np.mean(y_true)) ** 2)`. -/
def ssTotal {k : ℕ} (y_true : Fin k → ℚ) : ℚ :=
  ∑ i, (y_true i - npMean y_true) ^ 2

/-- Embeds `ss_residual = np.sum((y_true - y_pred) ** 2)`. -/
def ssResidual {k : ℕ} (y_true y_pred : Fin k → ℚ) : ℚ :=
  ∑ i, (y_true i - y_pred i) ^ 2

/-- The record returned by `evaluate_regression`.  `R2` is `none` when
the float division `ss_residual / ss_total` had a zero denominator and
therefore produced a non-finite value (`nan`/`inf`); `RMSE` is real
because of the square root. -/
structure Metrics where
  R2 : Option ℚ
  RMSE : ℝ
  MAE : ℚ

/-- Embeds `evaluate_regression`: `R2 = 1 - ss_residual / ss_total` (non-finite,
modelled `none`, when `ss_total = 0`), `RMSE = sqrt(mean((y-ŷ)²))`,
`MAE = mean(|y-ŷ|)`.  No guard on the zero denominator. -/
noncomputable def evaluate_regression {k : ℕ} (y_true y_pred : Fin k → ℚ) :
    Metrics :=
  { R2 := if ssTotal y_true = 0 then none else
      some (1 - ssResidual y_true y_pred / ssTotal y_true)
    RMSE := Real.sqrt ((npMean fun i => (y_true i - y_pred i) ^ 2 : ℚ) : ℝ)
    MAE := npMean fun i => |y_true i - y_pred i| }

/-- Embeds `np.unique`: the distinct values of a list in ascending order.
Entries live in a linearly ordered type (numpy sorts; string categories
are covered by the order on strings). -/
def npUnique {α : Type} [LinearOrder α] [DecidableEq α] (l : List α) :
    List α :=
  List.insertionSort (fun a b => a ≤ b) l.dedup

/-- Embeds `X_transformed[:, index]`: column `index` of a row-major array. -/
def colOf {α : Type} [Zero α] (X : List (List α)) (index : ℕ) : List α :=
  X.map (fun r => r.getD index 0)

/-- One row of the one-hot block for value `v` over the category list
`uniq`: `(categorical_column == category).astype(int)` transposed, with
the first level optionally dropped (`one_hot[:, 1:]`).  Indicator
entries are the `0` and `1` of `α`. -/
def indicatorBlock {α : Type} [DecidableEq α] [Zero α] [One α]
    (uniq : List α) (drop_first : Bool) (v : α) : List α :=
  let one_hot := uniq.map (fun c => if v = c then (1 : α) else 0)
  if drop_first then one_hot.drop 1 else one_hot

/-- The loop body of `one_hot_encode` for one column index: extract the
column, compute its unique values, build the indicator block per row,
and splice the block where the column was (`np.delete` followed by
`np.hstack((X[:, :index], one_hot, X[:, index:]))`). -/
def encodeColumn {α : Type} [LinearOrder α] [DecidableEq α] [Zero α]
    [One α] (X : List (List α)) (index : ℕ) (drop_first : Bool) :
    List (List α) :=
  let unique_values := npUnique (colOf X index)
  X.map (fun r =>
    r.take index ++ indicatorBlock unique_values drop_first (r.getD index 0) ++
      r.drop (index + 1))

/-- Embeds `one_hot_encode`: processes the requested column indices in
descending order (`sorted(categorical_indices, reverse=True)`), encoding
each in turn, starting from a copy of `X` (the input is never written). -/
def one_hot_encode {α : Type} [LinearOrder α] [DecidableEq α] [Zero α]
    [One α] (X : List (List α)) (categorical_indices : List ℕ)
    (drop_first : Bool) : List (List α) :=
  (List.insertionSort (fun a b => a ≥ b) categorical_indices).foldl
    (fun acc index => encodeColumn acc index drop_first) X

/-- The mean squared error attained by a parameter vector
`p = [intercept, *coefficients]` on data `(X, y)`. -/
def mseOfParams {m n : ℕ} (X : Matrix (Fin m) (Fin (n + 1)) ℚ)
    (y : Fin m → ℚ) (p : Fin (n + 1) → ℚ) : ℚ :=
  (∑ i, (X *ᵥ p - y) i ^ 2) / m

/-! ## General lemmas about the embedding -/

theorem addBias_mulVec {m n : ℕ} (X : Matrix (Fin m) (Fin n) ℚ) (b : ℚ)
    (w : Fin n → ℚ) (i : Fin m) :
    (addBias X *ᵥ Matrix.vecCons b w) i = b + ∑ j, X i j * w j := by
  simp [addBias, Matrix.mulVec, dotProduct, Fin.sum_univ_succ]

theorem npLinalgInv_of_det_ne_zero {k : ℕ} (A : Matrix (Fin k) (Fin k) ℚ)
    (h : A.det ≠ 0) : npLinalgInv A = Except.ok A⁻¹ := by
  rw [npLinalgInv, if_neg h, Matrix.inv_def, Ring.inverse_eq_inv]

theorem fit_multiple_eq {m n : ℕ} (X : Matrix (Fin m) (Fin (n + 1)) ℚ)
    (y : Fin m → ℚ) (h : (Xᵀ * X).det ≠ 0) :
    fit_multiple X y =
      Except.ok ((((Xᵀ * X)⁻¹ * Xᵀ) *ᵥ y) 0,
        fun i => (((Xᵀ * X)⁻¹ * Xᵀ) *ᵥ y) i.succ) := by
  rw [fit_multiple, npLinalgInv_of_det_ne_zero _ h]
  rfl

theorem fit_least_squares_eq {m n : ℕ} (X : Matrix (Fin m) (Fin n) ℚ)
    (y : Fin m → ℚ) (learning_rate : ℚ) (iterations : ℕ) (s0 : GDState n)
    (model : Model n) (h : ((addBias X)ᵀ * addBias X).det ≠ 0) :
    fit "least_squares" X y learning_rate iterations s0 model =
      ({ intercept :=
           some (((((addBias X)ᵀ * addBias X)⁻¹ * (addBias X)ᵀ) *ᵥ y) 0),
         coefficients :=
           some fun i =>
             ((((addBias X)ᵀ * addBias X)⁻¹ * (addBias X)ᵀ) *ᵥ y) i.succ },
       Except.ok none) := by
  rw [fit, if_neg (by decide)]
  simp only [fit_multiple_eq (addBias X) y h]
  rfl

/-! ## Claim theorems -/

/-- C1: for every bias-augmented design matrix `X` and target `y` (with
`XᵀX` invertible, the case where `np.linalg.inv` returns), `fit` with
`method="least_squares"` delegates to `fit_multiple`, which computes the
normal-equation solution `θ = (XᵀX)⁻¹Xᵀy` and stores
`intercept = θ[0]`, `coefficients = θ[1:]`. -/
theorem fit_leastSquares_normal_equation {m n : ℕ}
    (X : Matrix (Fin m) (Fin (n + 1)) ℚ) (y : Fin m → ℚ)
    (Xraw : Matrix (Fin m) (Fin n) ℚ) (learning_rate : ℚ) (iterations : ℕ)
    (s0 : GDState n) (model : Model n) (h : (Xᵀ * X).det ≠ 0) :
    fit_multiple X y =
      Except.ok ((((Xᵀ * X)⁻¹ * Xᵀ) *ᵥ y) 0,
        fun i => (((Xᵀ * X)⁻¹ * Xᵀ) *ᵥ y) i.succ) ∧
    fit "least_squares" Xraw y learning_rate iterations s0 model =
      (match fit_multiple (addBias Xraw) y with
       | Except.error e => (model, Except.error e)
       | Except.ok bw =>
         ({ intercept := some bw.1, coefficients := some bw.2 },
          Except.ok none)) := by
  refine ⟨fit_multiple_eq X y h, ?_⟩
  rw [fit, if_neg (by decide)]
  rfl

/-- Witness for C1 at `X = [[1,1],[1,2]]` (bias-augmented), `y = [3,5]`. -/
theorem fit_leastSquares_normal_equation_witness :
    (((!![(1 : ℚ), 1; 1, 2])ᵀ * !![(1 : ℚ), 1; 1, 2]).det ≠ 0) ∧
    fit_multiple !![(1 : ℚ), 1; 1, 2] ![3, 5] =
      Except.ok (((((!![(1 : ℚ), 1; 1, 2])ᵀ * !![(1 : ℚ), 1; 1, 2])⁻¹ *
          (!![(1 : ℚ), 1; 1, 2])ᵀ) *ᵥ ![3, 5]) 0,
        fun i => ((((!![(1 : ℚ), 1; 1, 2])ᵀ * !![(1 : ℚ), 1; 1, 2])⁻¹ *
          (!![(1 : ℚ), 1; 1, 2])ᵀ) *ᵥ ![3, 5]) i.succ) := by
  have h : ((!![(1 : ℚ), 1; 1, 2])ᵀ * !![(1 : ℚ), 1; 1, 2]).det ≠ 0 := by
    norm_num [Matrix.det_fin_two, Matrix.mul_apply, Fin.sum_univ_succ,
      Matrix.transpose_apply, Matrix.vecHead, Matrix.vecTail]
  exact ⟨h, (fit_leastSquares_normal_equation !![(1 : ℚ), 1; 1, 2] ![3, 5]
    !![(1 : ℚ); 2] 0 0 ⟨0, fun _ => 0⟩ ⟨none, none⟩ h).1⟩

/-- C4: on a fitted model, `predict` prepends a bias column and returns
`[1|X]·[intercept, coefficients]`, i.e. `intercept + Σⱼ Xᵢⱼ·wⱼ` per row;
1D inputs are reshaped to a single column and handled by the exact same
computation, and the output has one entry per input row. -/
theorem predict_bias_column {m m' n : ℕ} (model : Model n) (b : ℚ)
    (w : Fin n → ℚ) (hb : model.intercept = some b)
    (hw : model.coefficients = some w) (X : Matrix (Fin m) (Fin n) ℚ) :
    predict model X = Except.ok (fun i => b + ∑ j, X i j * w j) ∧
    (∀ (model1 : Model 1) (x : Fin m' → ℚ),
      predict1 model1 x = predict model1 (reshapeCol x)) ∧
    (∀ (model1 : Model 1) (b1 : ℚ) (w1 : Fin 1 → ℚ),
      model1.intercept = some b1 → model1.coefficients = some w1 →
      ∀ x : Fin m' → ℚ,
        predict1 model1 x = Except.ok fun i => b1 + w1 0 * x i) ∧
    (List.ofFn fun i => b + ∑ j, X i j * w j).length = m := by
  obtain ⟨ob, ow⟩ := model
  cases hb
  cases hw
  refine ⟨?_, ?_, ?_, List.length_ofFn _⟩
  · rw [predict]
    exact congrArg Except.ok (funext fun i => addBias_mulVec X b w i)
  · intro model1 x
    obtain ⟨ob1, ow1⟩ := model1
    cases ob1 <;> cases ow1 <;> rfl
  · intro model1 b1 w1 hb1 hw1 x
    obtain ⟨ob1, ow1⟩ := model1
    cases hb1
    cases hw1
    rw [predict1]
    refine congrArg Except.ok (funext fun i => ?_)
    have := addBias_mulVec (reshapeCol x) b1 w1 i
    simpa [reshapeCol, mul_comm] using this

/-- Witness for C4 with `intercept = 2`, `coefficients = [3]`,
`X = [[4]]`. -/
theorem predict_bias_column_witness :
    predict ⟨some 2, some ![3]⟩ !![(4 : ℚ)] =
      Except.ok (fun i => 2 + ∑ j, !![(4 : ℚ)] i j * ![3] j) ∧
    (∀ (model1 : Model 1) (x : Fin 1 → ℚ),
      predict1 model1 x = predict model1 (reshapeCol x)) ∧
    (∀ (model1 : Model 1) (b1 : ℚ) (w1 : Fin 1 → ℚ),
      model1.intercept = some b1 → model1.coefficients = some w1 →
      ∀ x : Fin 1 → ℚ,
        predict1 model1 x = Except.ok fun i => b1 + w1 0 * x i) ∧
    (List.ofFn fun i : Fin 1 => 2 + ∑ j, !![(4 : ℚ)] i j * ![3] j).length
      = 1 :=
  predict_bias_column ⟨some 2, some ![3]⟩ 2 ![3] rfl rfl !![(4 : ℚ)]

/-- C5: `fit` with a method tag other than the two recognised values
fails with the `ValueError` message immediately — the returned model
state is the prior one, untouched. -/
theorem fit_invalid_method {m n : ℕ} (method : String)
    (h1 : method ≠ "least_squares") (h2 : method ≠ "gradient_descent")
    (X : Matrix (Fin m) (Fin n) ℚ) (y : Fin m → ℚ) (learning_rate : ℚ)
    (iterations : ℕ) (s0 : GDState n) (model : Model n) :
    fit method X y learning_rate iterations s0 model =
      (model, Except.error ("Method " ++ method ++
        " not available for training linear regression.")) := by
  rw [fit, if_pos]
  simp [h1, h2]

/-- Witness for C5 with `method = "invalid"` and a previously fitted
model `⟨some 7, some ![1]⟩`. -/
theorem fit_invalid_method_witness :
    fit "invalid" !![(4 : ℚ)] ![1] 1 1 ⟨0, fun _ => 0⟩ ⟨some 7, some ![1]⟩ =
      (⟨some 7, some ![1]⟩, Except.error ("Method " ++ "invalid" ++
        " not available for training linear regression.")) :=
  fit_invalid_method "invalid" (by decide) (by decide) !![(4 : ℚ)] ![1] 1 1
    ⟨0, fun _ => 0⟩ ⟨some 7, some ![1]⟩

theorem gdRun_fst {m n : ℕ} (X : Matrix (Fin m) (Fin (n + 1)) ℚ)
    (y : Fin m → ℚ) (lr : ℚ) (k : ℕ) (s : GDState n) :
    (gdRun X y lr k s).1 = (gdUpdate X y lr)^[k] s := by
  induction k generalizing s with
  | zero => rfl
  | succ k ih =>
    rw [gdRun, Function.iterate_succ_apply]
    exact ih (gdUpdate X y lr s)

theorem gdRun_loss_length {m n : ℕ} (X : Matrix (Fin m) (Fin (n + 1)) ℚ)
    (y : Fin m → ℚ) (lr : ℚ) (k : ℕ) (s : GDState n) :
    (gdRun X y lr k s).2.1.length = k := by
  induction k generalizing s with
  | zero => rfl
  | succ k ih =>
    rw [gdRun]
    exact congrArg Nat.succ (ih (gdUpdate X y lr s))

theorem gdRun_w_length {m n : ℕ} (X : Matrix (Fin m) (Fin (n + 1)) ℚ)
    (y : Fin m → ℚ) (lr : ℚ) (k : ℕ) (s : GDState n) :
    (gdRun X y lr k s).2.2.length = k := by
  induction k generalizing s with
  | zero => rfl
  | succ k ih =>
    rw [gdRun]
    exact congrArg Nat.succ (ih (gdUpdate X y lr s))

theorem gdRun_loss_get {m n : ℕ} (X : Matrix (Fin m) (Fin (n + 1)) ℚ)
    (y : Fin m → ℚ) (lr : ℚ) (k : ℕ) (s : GDState n) (i : ℕ) (hi : i < k) :
    (gdRun X y lr k s).2.1.get? i =
      some (gdMse X y ((gdUpdate X y lr)^[i] s)) := by
  induction k generalizing s i with
  | zero => exact absurd hi (Nat.not_lt_zero i)
  | succ k ih =>
    rw [gdRun]
    cases i with
    | zero => rfl
    | succ i =>
      rw [Function.iterate_succ_apply]
      exact ih (gdUpdate X y lr s) i (Nat.lt_of_succ_lt_succ hi)

theorem gdRun_w_get {m n : ℕ} (X : Matrix (Fin m) (Fin (n + 1)) ℚ)
    (y : Fin m → ℚ) (lr : ℚ) (k : ℕ) (s : GDState n) (i : ℕ) (hi : i < k) :
    (gdRun X y lr k s).2.2.get? i =
      some (((gdUpdate X y lr)^[i + 1] s).params) := by
  induction k generalizing s i with
  | zero => exact absurd hi (Nat.not_lt_zero i)
  | succ k ih =>
    rw [gdRun]
    cases i with
    | zero => rfl
    | succ i =>
      rw [Function.iterate_succ_apply]
      exact ih (gdUpdate X y lr s) i (Nat.lt_of_succ_lt_succ hi)

/-- C2: gradient descent runs exactly `iterations` iterations from the
initial state, with no early stopping: both histories have length
`iterations`, the `i`-th loss entry is the MSE of the error vector of the
`i`-times-updated state (the state the iteration started from), and the
`i`-th weight entry is the post-update snapshot, i.e. the state after
`i + 1` applications of the update
`params -= learning_rate * (2/m) * Xᵀ(X·params - y)`. -/
theorem fit_gradient_descent_histories {m n : ℕ}
    (X : Matrix (Fin m) (Fin (n + 1)) ℚ) (y : Fin m → ℚ)
    (learning_rate : ℚ) (iterations : ℕ) (s0 : GDState n) :
    (fit_gradient_descent X y learning_rate iterations s0).1.length =
      iterations ∧
    (fit_gradient_descent X y learning_rate iterations s0).2.length =
      iterations ∧
    ∀ i, i < iterations →
      (fit_gradient_descent X y learning_rate iterations s0).1.get? i =
        some (gdMse X y ((gdUpdate X y learning_rate)^[i] s0)) ∧
      (fit_gradient_descent X y learning_rate iterations s0).2.get? i =
        some (((gdUpdate X y learning_rate)^[i + 1] s0).params) :=
  ⟨gdRun_loss_length X y learning_rate iterations s0,
   gdRun_w_length X y learning_rate iterations s0,
   fun i hi => ⟨gdRun_loss_get X y learning_rate iterations s0 i hi,
     gdRun_w_get X y learning_rate iterations s0 i hi⟩⟩

/-- Witness for C2: two iterations on `X = [[1]]`, `y = [1]`, evaluating
the history entries at `i = 1`. -/
theorem fit_gradient_descent_histories_witness :
    (fit_gradient_descent !![(1 : ℚ)] ![1] 1 2 ⟨0, fun _ => 0⟩).1.length
      = 2 ∧
    (fit_gradient_descent !![(1 : ℚ)] ![1] 1 2 ⟨0, fun _ => 0⟩).2.length
      = 2 ∧
    (fit_gradient_descent !![(1 : ℚ)] ![1] 1 2 ⟨0, fun _ => 0⟩).1.get? 1 =
      some (gdMse !![(1 : ℚ)] ![1]
        ((gdUpdate !![(1 : ℚ)] ![1] 1)^[1] ⟨0, fun _ => 0⟩)) ∧
    (fit_gradient_descent !![(1 : ℚ)] ![1] 1 2 ⟨0, fun _ => 0⟩).2.get? 1 =
      some (((gdUpdate !![(1 : ℚ)] ![1] 1)^[2] ⟨0, fun _ => 0⟩).params) := by
  obtain ⟨h1, h2, h3⟩ :=
    fit_gradient_descent_histories !![(1 : ℚ)] ![1] 1 2 ⟨0, fun _ => 0⟩
  exact ⟨h1, h2, (h3 1 (by decide)).1, (h3 1 (by decide)).2⟩

/-- C10: the two histories are offset by one update: `loss_history[0]` is
the MSE of the initial (random) parameters, and for `i ≥ 1`,
`loss_history[i]` is the MSE attained by the snapshot `w_history[i-1]`
recorded in the previous iteration (not by `w_history[i]` of the same
iteration). -/
theorem loss_history_offset_from_w_history {m n : ℕ}
    (X : Matrix (Fin m) (Fin (n + 1)) ℚ) (y : Fin m → ℚ)
    (learning_rate : ℚ) (iterations : ℕ) (s0 : GDState n)
    (hpos : 0 < iterations) :
    (fit_gradient_descent X y learning_rate iterations s0).1.get? 0 =
      some (mseOfParams X y s0.params) ∧
    ∀ i, i + 1 < iterations →
      ((fit_gradient_descent X y learning_rate iterations s0).2.get?
          i).map (mseOfParams X y) =
        (fit_gradient_descent X y learning_rate iterations s0).1.get?
          (i + 1) := by
  simp only [fit_gradient_descent]
  constructor
  · exact gdRun_loss_get X y learning_rate iterations s0 0 hpos
  · intro i hi
    rw [gdRun_w_get X y learning_rate iterations s0 i
        (Nat.lt_of_succ_lt hi),
      gdRun_loss_get X y learning_rate iterations s0 (i + 1) hi]
    rfl

/-- Witness for C10: two iterations on `X = [[1]]`, `y = [1]`, with the
offset identity evaluated at `i = 0`. -/
theorem loss_history_offset_from_w_history_witness :
    (fit_gradient_descent !![(1 : ℚ)] ![1] 1 2 ⟨0, fun _ => 0⟩).1.get? 0 =
      some (mseOfParams !![(1 : ℚ)] ![1]
        (GDState.params ⟨0, fun _ => 0⟩)) ∧
    ((fit_gradient_descent !![(1 : ℚ)] ![1] 1 2 ⟨0, fun _ => 0⟩).2.get?
        0).map (mseOfParams !![(1 : ℚ)] ![1]) =
      (fit_gradient_descent !![(1 : ℚ)] ![1] 1 2 ⟨0, fun _ => 0⟩).1.get?
        1 := by
  obtain ⟨h1, h2⟩ := loss_history_offset_from_w_history !![(1 : ℚ)] ![1] 1 2
    ⟨0, fun _ => 0⟩ (by decide)
  exact ⟨h1, h2 0 (by decide)⟩

/-- C3 (amended): when the target lies in the column span of the
bias-augmented design matrix (`y = [1|X]·β`) and `XᵀX` is invertible,
closed-form fit followed by `predict` on the same `X` reproduces `y`
exactly.  (As stated over all full-column-rank `X` the claim is false:
least squares only projects `y` onto the column span, see the
counterexample.) -/
theorem closedform_fit_predict_reproduces_span {m n : ℕ}
    (X : Matrix (Fin m) (Fin n) ℚ) (y : Fin m → ℚ) (β : Fin (n + 1) → ℚ)
    (learning_rate : ℚ) (iterations : ℕ) (s0 : GDState n) (model : Model n)
    (hdet : ((addBias X)ᵀ * addBias X).det ≠ 0)
    (hy : y = addBias X *ᵥ β) :
    predict
        (fit "least_squares" X y learning_rate iterations s0 model).1 X =
      Except.ok y := by
  rw [fit_least_squares_eq X y learning_rate iterations s0 model hdet]
  show Except.ok (addBias X *ᵥ Matrix.vecCons
    (((((addBias X)ᵀ * addBias X)⁻¹ * (addBias X)ᵀ) *ᵥ y) 0)
    (fun i => ((((addBias X)ᵀ * addBias X)⁻¹ * (addBias X)ᵀ) *ᵥ y) i.succ))
      = Except.ok y
  refine congrArg Except.ok ?_
  have hcons : Matrix.vecCons
      (((((addBias X)ᵀ * addBias X)⁻¹ * (addBias X)ᵀ) *ᵥ y) 0)
      (fun i =>
        ((((addBias X)ᵀ * addBias X)⁻¹ * (addBias X)ᵀ) *ᵥ y) i.succ) =
      (((addBias X)ᵀ * addBias X)⁻¹ * (addBias X)ᵀ) *ᵥ y :=
    Matrix.cons_head_tail
      ((((addBias X)ᵀ * addBias X)⁻¹ * (addBias X)ᵀ) *ᵥ y)
  rw [hcons, hy, Matrix.mulVec_mulVec, Matrix.mulVec_mulVec]
  have key : addBias X * (((addBias X)ᵀ * addBias X)⁻¹ * (addBias X)ᵀ) *
      addBias X = addBias X := by
    rw [Matrix.mul_assoc, Matrix.mul_assoc,
      Matrix.nonsing_inv_mul _ (isUnit_iff_ne_zero.mpr hdet),
      Matrix.mul_one]
  rw [key]

/-- Witness for C3 (amended) at the spec scenario
`X = [[1],[2],[3],[4]]`, `y = [2,4,6,8] = [1|X]·[0,2]`. -/
theorem closedform_fit_predict_reproduces_span_witness :
    ((addBias !![(1 : ℚ); 2; 3; 4])ᵀ * addBias !![(1 : ℚ); 2; 3; 4]).det
      ≠ 0 ∧
    (![2, 4, 6, 8] : Fin 4 → ℚ) =
      addBias !![(1 : ℚ); 2; 3; 4] *ᵥ ![0, 2] ∧
    predict (fit "least_squares" !![(1 : ℚ); 2; 3; 4] ![2, 4, 6, 8] 0 0
        ⟨0, fun _ => 0⟩ ⟨none, none⟩).1 !![(1 : ℚ); 2; 3; 4] =
      Except.ok ![2, 4, 6, 8] := by
  have hdet : ((addBias !![(1 : ℚ); 2; 3; 4])ᵀ *
      addBias !![(1 : ℚ); 2; 3; 4]).det ≠ 0 := by
    show ¬(((addBias !![(1 : ℚ); 2; 3; 4])ᵀ * addBias !![(1 : ℚ); 2; 3; 4] :
      Matrix (Fin 2) (Fin 2) ℚ).det = 0)
    rw [Matrix.det_fin_two]
    simp only [Matrix.mul_apply, Fin.sum_univ_succ, Matrix.transpose_apply,
      addBias]
    norm_num [Matrix.vecHead, Matrix.vecTail]
  have hy : (![2, 4, 6, 8] : Fin 4 → ℚ) =
      addBias !![(1 : ℚ); 2; 3; 4] *ᵥ ![0, 2] := by
    funext i
    fin_cases i <;>
      norm_num [addBias, Matrix.mulVec, dotProduct, Fin.sum_univ_succ,
        Matrix.vecHead, Matrix.vecTail]
  exact ⟨hdet, hy, closedform_fit_predict_reproduces_span
    !![(1 : ℚ); 2; 3; 4] ![2, 4, 6, 8] ![0, 2] 0 0 ⟨0, fun _ => 0⟩
    ⟨none, none⟩ hdet hy⟩

/-- C3 (counterexample): `X = [[0],[0],[1]]` has a full-column-rank
bias-augmented design matrix (`det(XᵀX) = 2 ≠ 0`), yet for
`y = [0,1,0]` the closed-form fit followed by `predict` on the same `X`
returns `[1/2, 1/2, 0] ≠ y`: the claim fails for every `y` outside the
column span. -/
theorem closedform_fit_predict_cex :
    ((addBias !![(0 : ℚ); 0; 1])ᵀ * addBias !![(0 : ℚ); 0; 1]).det ≠ 0 ∧
    predict (fit "least_squares" !![(0 : ℚ); 0; 1] ![0, 1, 0] 0 0
        ⟨0, fun _ => 0⟩ ⟨none, none⟩).1 !![(0 : ℚ); 0; 1] ≠
      Except.ok ![0, 1, 0] := by
  have hdet : ((addBias !![(0 : ℚ); 0; 1])ᵀ *
      addBias !![(0 : ℚ); 0; 1]).det ≠ 0 := by
    show ¬(((addBias !![(0 : ℚ); 0; 1])ᵀ * addBias !![(0 : ℚ); 0; 1] :
      Matrix (Fin 2) (Fin 2) ℚ).det = 0)
    rw [Matrix.det_fin_two]
    simp only [Matrix.mul_apply, Fin.sum_univ_succ, Matrix.transpose_apply,
      addBias]
    norm_num [Matrix.vecHead, Matrix.vecTail]
  have htheta : ((((addBias !![(0 : ℚ); 0; 1])ᵀ *
        addBias !![(0 : ℚ); 0; 1])⁻¹ * (addBias !![(0 : ℚ); 0; 1])ᵀ) *ᵥ
        ![0, 1, 0]) = ![1/2, -1/2] := by
    have h1 : ((addBias !![(0 : ℚ); 0; 1])ᵀ * addBias !![(0 : ℚ); 0; 1])
        *ᵥ ![1/2, -1/2] = (addBias !![(0 : ℚ); 0; 1])ᵀ *ᵥ ![0, 1, 0] := by
      funext i
      fin_cases i <;>
        norm_num [addBias, Matrix.mulVec, Matrix.mul_apply, dotProduct,
          Fin.sum_univ_succ, Matrix.transpose_apply, Matrix.vecHead,
          Matrix.vecTail]
    calc (((addBias !![(0 : ℚ); 0; 1])ᵀ * addBias !![(0 : ℚ); 0; 1])⁻¹ *
          (addBias !![(0 : ℚ); 0; 1])ᵀ) *ᵥ ![0, 1, 0]
        = ((addBias !![(0 : ℚ); 0; 1])ᵀ * addBias !![(0 : ℚ); 0; 1])⁻¹ *ᵥ
            ((addBias !![(0 : ℚ); 0; 1])ᵀ *ᵥ ![0, 1, 0]) :=
          (Matrix.mulVec_mulVec _ _ _).symm
      _ = ((addBias !![(0 : ℚ); 0; 1])ᵀ * addBias !![(0 : ℚ); 0; 1])⁻¹ *ᵥ
            (((addBias !![(0 : ℚ); 0; 1])ᵀ * addBias !![(0 : ℚ); 0; 1]) *ᵥ
              ![1/2, -1/2]) := by rw [h1]
      _ = (((addBias !![(0 : ℚ); 0; 1])ᵀ * addBias !![(0 : ℚ); 0; 1])⁻¹ *
            ((addBias !![(0 : ℚ); 0; 1])ᵀ * addBias !![(0 : ℚ); 0; 1])) *ᵥ
            ![1/2, -1/2] := Matrix.mulVec_mulVec _ _ _
      _ = (1 : Matrix (Fin 2) (Fin 2) ℚ) *ᵥ ![1/2, -1/2] := by
          rw [Matrix.nonsing_inv_mul _ (isUnit_iff_ne_zero.mpr hdet)]
      _ = ![1/2, -1/2] := Matrix.one_mulVec _
  refine ⟨hdet, ?_⟩
  rw [fit_least_squares_eq _ _ _ _ _ _ hdet]
  intro hcontra
  have hfun : addBias !![(0 : ℚ); 0; 1] *ᵥ Matrix.vecCons
      (((((addBias !![(0 : ℚ); 0; 1])ᵀ * addBias !![(0 : ℚ); 0; 1])⁻¹ *
          (addBias !![(0 : ℚ); 0; 1])ᵀ) *ᵥ ![0, 1, 0]) 0)
      (fun i =>
        ((((addBias !![(0 : ℚ); 0; 1])ᵀ * addBias !![(0 : ℚ); 0; 1])⁻¹ *
          (addBias !![(0 : ℚ); 0; 1])ᵀ) *ᵥ ![0, 1, 0]) i.succ) =
      ![0, 1, 0] := by
    injection hcontra
  rw [htheta] at hfun
  have h0 := congrFun hfun 0
  norm_num [addBias, Matrix.mulVec, dotProduct, Fin.sum_univ_succ,
    Matrix.vecHead, Matrix.vecTail] at h0

theorem ssTotal_of_const {k : ℕ} (y : Fin k → ℚ) (c : ℚ)
    (h : ∀ i, y i = c) : ssTotal y = 0 := by
  cases k with
  | zero => simp [ssTotal]
  | succ k' =>
    have hy : y = fun _ => c := funext h
    subst hy
    have hcast : ((k' + 1 : ℕ) : ℚ) ≠ 0 :=
      Nat.cast_ne_zero.mpr (Nat.succ_ne_zero k')
    have hmean : npMean (fun _ : Fin (k' + 1) => c) = c := by
      rw [npMean, Finset.sum_const, Finset.card_univ, Fintype.card_fin,
        nsmul_eq_mul]
      exact mul_div_cancel_left₀ c hcast
    simp [ssTotal, hmean]

/-- C6: numeric-degenerate inputs are not guarded: a singular `XᵀX`
makes `np.linalg.inv` fail and `fit_multiple` (and `fit`) propagate the
failure to the caller; `evaluate_regression` on an all-identical
`y_true` divides by `ss_total = 0` and the non-finite `R²` (modelled
`none`) propagates, with no interception in either place. -/
theorem degenerate_inputs_unguarded :
    (∀ (m n : ℕ) (X : Matrix (Fin m) (Fin (n + 1)) ℚ) (y : Fin m → ℚ),
      (Xᵀ * X).det = 0 → fit_multiple X y = Except.error "Singular matrix")
    ∧
    (∀ (m n : ℕ) (X : Matrix (Fin m) (Fin n) ℚ) (y : Fin m → ℚ)
      (learning_rate : ℚ) (iterations : ℕ) (s0 : GDState n)
      (model : Model n), ((addBias X)ᵀ * addBias X).det = 0 →
      fit "least_squares" X y learning_rate iterations s0 model =
        (model, Except.error "Singular matrix")) ∧
    (∀ (k : ℕ) (y_true y_pred : Fin k → ℚ) (c : ℚ), (∀ i, y_true i = c) →
      ssTotal y_true = 0 ∧ (evaluate_regression y_true y_pred).R2 = none)
    := by
  have h1 : ∀ (m n : ℕ) (X : Matrix (Fin m) (Fin (n + 1)) ℚ)
      (y : Fin m → ℚ), (Xᵀ * X).det = 0 →
      fit_multiple X y = Except.error "Singular matrix" := by
    intro m n X y h
    rw [fit_multiple, npLinalgInv, if_pos h]
    rfl
  refine ⟨h1, ?_, ?_⟩
  · intro m n X y learning_rate iterations s0 model h
    rw [fit, if_neg (by decide)]
    simp only [h1 m n (addBias X) y h]
    rfl
  · intro k y_true y_pred c h
    have hss := ssTotal_of_const y_true c h
    exact ⟨hss, by simp [evaluate_regression, hss]⟩

/-- Witness for C6: the singular design `X = [[1,1],[1,1]]` (bias column
plus a constant feature) and the constant target `y_true = [5,5]`. -/
theorem degenerate_inputs_unguarded_witness :
    fit_multiple !![(1 : ℚ), 1; 1, 1] ![1, 2] =
      Except.error "Singular matrix" ∧
    fit "least_squares" !![(1 : ℚ); 1] ![1, 2] 1 1 ⟨0, fun _ => 0⟩
      ⟨none, none⟩ = (⟨none, none⟩, Except.error "Singular matrix") ∧
    ssTotal (fun _ : Fin 2 => (5 : ℚ)) = 0 ∧
    (evaluate_regression (fun _ : Fin 2 => (5 : ℚ)) ![1, 2]).R2 = none := by
  obtain ⟨h1, h2, h3⟩ := degenerate_inputs_unguarded
  have hd1 : ((!![(1 : ℚ), 1; 1, 1])ᵀ * !![(1 : ℚ), 1; 1, 1]).det = 0 := by
    show ((!![(1 : ℚ), 1; 1, 1])ᵀ * !![(1 : ℚ), 1; 1, 1] :
      Matrix (Fin 2) (Fin 2) ℚ).det = 0
    rw [Matrix.det_fin_two]
    simp only [Matrix.mul_apply, Fin.sum_univ_succ, Matrix.transpose_apply]
    norm_num [Matrix.vecHead, Matrix.vecTail]
  have hd2 : ((addBias !![(1 : ℚ); 1])ᵀ * addBias !![(1 : ℚ); 1]).det = 0
      := by
    show ((addBias !![(1 : ℚ); 1])ᵀ * addBias !![(1 : ℚ); 1] :
      Matrix (Fin 2) (Fin 2) ℚ).det = 0
    rw [Matrix.det_fin_two]
    simp only [Matrix.mul_apply, Fin.sum_univ_succ, Matrix.transpose_apply,
      addBias]
    norm_num [Matrix.vecHead, Matrix.vecTail]
  obtain ⟨hs, hr⟩ := h3 2 (fun _ => (5 : ℚ)) ![1, 2] 5 (fun _ => rfl)
  exact ⟨h1 2 1 !![(1 : ℚ), 1; 1, 1] ![1, 2] hd1,
    h2 2 1 !![(1 : ℚ); 1] ![1, 2] 1 1 ⟨0, fun _ => 0⟩ ⟨none, none⟩ hd2,
    hs, hr⟩

/-- C7 (amended): `evaluate_regression(y, y)` returns exactly `R² = 1`,
`RMSE = 0`, `MAE = 0` for every `y` whose values are not all identical
(`ss_total ≠ 0`).  (As stated over every `y` the claim fails: for a
constant `y` the unguarded `R²` division is `0/0`, giving a non-finite
result instead of `1`, see the counterexample.) -/
theorem evaluate_regression_self {k : ℕ} (y : Fin k → ℚ)
    (h : ssTotal y ≠ 0) :
    (evaluate_regression y y).R2 = some 1 ∧
    (evaluate_regression y y).RMSE = 0 ∧
    (evaluate_regression y y).MAE = 0 := by
  refine ⟨?_, ?_, ?_⟩
  · simp [evaluate_regression, h, ssResidual]
  · simp [evaluate_regression, npMean]
  · simp [evaluate_regression, npMean]

/-- C7 (counterexample): on the constant vector `y = [5,5]` the code's
`R²` is the unguarded `1 - 0/0`, a non-finite value (`none`), not `1`. -/
theorem evaluate_regression_self_cex :
    (evaluate_regression (fun _ : Fin 2 => (5 : ℚ)) fun _ => (5 : ℚ)).R2 ≠
      some 1 := by
  have h : ssTotal (fun _ : Fin 2 => (5 : ℚ)) = 0 :=
    ssTotal_of_const _ 5 fun _ => rfl
  simp [evaluate_regression, h]

/-- Witness for C7 (amended) at the non-constant vector `y = [1,2]`. -/
theorem evaluate_regression_self_witness :
    ssTotal (![1, 2] : Fin 2 → ℚ) ≠ 0 ∧
    (evaluate_regression (![1, 2] : Fin 2 → ℚ) ![1, 2]).R2 = some 1 ∧
    (evaluate_regression (![1, 2] : Fin 2 → ℚ) ![1, 2]).RMSE = 0 ∧
    (evaluate_regression (![1, 2] : Fin 2 → ℚ) ![1, 2]).MAE = 0 := by
  have h : ssTotal (![1, 2] : Fin 2 → ℚ) ≠ 0 := by
    norm_num [ssTotal, npMean, Fin.sum_univ_succ, Matrix.vecHead,
      Matrix.vecTail]
  obtain ⟨h1, h2, h3⟩ := evaluate_regression_self (![1, 2] : Fin 2 → ℚ) h
  exact ⟨h, h1, h2, h3⟩

/-! ## Lemmas about the one-hot encoder -/

theorem npUnique_nodup {α : Type} [LinearOrder α] [DecidableEq α]
    (l : List α) : (npUnique l).Nodup :=
  (List.perm_insertionSort _ _).nodup_iff.mpr l.nodup_dedup

theorem mem_npUnique {α : Type} [LinearOrder α] [DecidableEq α] (a : α)
    (l : List α) : a ∈ npUnique l ↔ a ∈ l := by
  rw [npUnique, (List.perm_insertionSort _ _).mem_iff, List.mem_dedup]

theorem npUnique_length {α : Type} [LinearOrder α] [DecidableEq α]
    (l : List α) : (npUnique l).length = l.toFinset.card := by
  rw [npUnique, (List.perm_insertionSort _ _).length_eq, List.card_toFinset]

theorem sum_indicator_of_not_mem {α : Type} [LinearOrderedCommRing α]
    [DecidableEq α] (l : List α) (v : α) (h : v ∉ l) :
    (l.map fun u => if v = u then (1 : α) else 0).sum = 0 := by
  induction l with
  | nil => rfl
  | cons a t ih =>
    have hva : v ≠ a := fun hv => h (hv ▸ List.mem_cons_self a t)
    have hvt : v ∉ t := fun hv => h (List.mem_cons_of_mem a hv)
    simp [hva, ih hvt]

theorem sum_indicator_of_nodup_mem {α : Type} [LinearOrderedCommRing α]
    [DecidableEq α] (l : List α) (v : α) (hnd : l.Nodup) (h : v ∈ l) :
    (l.map fun u => if v = u then (1 : α) else 0).sum = 1 := by
  induction l with
  | nil => exact absurd h (List.not_mem_nil v)
  | cons a t ih =>
    rcases List.mem_cons.mp h with hva | hvt
    · subst hva
      have hvt : v ∉ t := (List.nodup_cons.mp hnd).1
      simp [sum_indicator_of_not_mem t v hvt]
    · have hva : v ≠ a := fun hv =>
        (List.nodup_cons.mp hnd).1 (hv ▸ hvt)
      simp [hva, ih (List.nodup_cons.mp hnd).2 hvt]

theorem indicatorBlock_length {α : Type} [DecidableEq α] [Zero α] [One α]
    (uniq : List α) (df : Bool) (v : α) :
    (indicatorBlock uniq df v).length =
      if df then uniq.length - 1 else uniq.length := by
  rw [indicatorBlock]
  cases df <;> simp

theorem indicatorBlock_sum {α : Type} [LinearOrderedCommRing α]
    [DecidableEq α] (uniq : List α) (df : Bool) (v : α)
    (hnd : uniq.Nodup) (hv : v ∈ uniq) :
    if df then (indicatorBlock uniq df v).sum ≤ 1
    else (indicatorBlock uniq df v).sum = 1 := by
  have hsum := sum_indicator_of_nodup_mem uniq v hnd hv
  cases df with
  | false => simpa [indicatorBlock] using hsum
  | true =>
    rw [indicatorBlock]
    simp only [if_true]
    cases uniq with
    | nil => exact absurd hv (List.not_mem_nil v)
    | cons a t =>
      rw [List.map_cons] at hsum
      rw [List.map_cons]
      simp only [List.sum_cons] at hsum
      simp only [List.drop_succ_cons, List.drop_zero]
      have hhead : (0 : α) ≤ if v = a then 1 else 0 := by
        split <;> norm_num
      linarith

/-- C8: encoding a single column holding `k` distinct values replaces it
with exactly `k` indicator columns (`k - 1` with `drop_first`), each row
total being exactly `1` (at most `1` with `drop_first`), and the number
of rows is unchanged. -/
theorem one_hot_encode_single_column {α : Type} [LinearOrderedCommRing α]
    [DecidableEq α] (X : List (List α)) (c : ℕ) (df : Bool) :
    (one_hot_encode X [c] df).length = X.length ∧
    one_hot_encode X [c] df = X.map (fun r =>
      r.take c ++ indicatorBlock (npUnique (colOf X c)) df (r.getD c 0) ++
        r.drop (c + 1)) ∧
    (∀ r ∈ X,
      (indicatorBlock (npUnique (colOf X c)) df (r.getD c 0)).length =
        if df then (colOf X c).toFinset.card - 1
        else (colOf X c).toFinset.card) ∧
    (∀ r ∈ X,
      if df then
        (indicatorBlock (npUnique (colOf X c)) df (r.getD c 0)).sum ≤ 1
      else
        (indicatorBlock (npUnique (colOf X c)) df (r.getD c 0)).sum = 1)
    := by
  have hsingle : one_hot_encode X [c] df = encodeColumn X c df := rfl
  have henc : encodeColumn X c df = X.map (fun r =>
      r.take c ++ indicatorBlock (npUnique (colOf X c)) df (r.getD c 0) ++
        r.drop (c + 1)) := rfl
  refine ⟨?_, hsingle.trans henc, ?_, ?_⟩
  · rw [hsingle, henc, List.length_map]
  · intro r _
    rw [indicatorBlock_length, npUnique_length]
  · intro r hr
    have hv : r.getD c 0 ∈ npUnique (colOf X c) :=
      (mem_npUnique _ _).mpr (List.mem_map_of_mem (fun t => t.getD c 0) hr)
    exact indicatorBlock_sum _ df _ (npUnique_nodup _) hv

/-- Witness for C8 on `X = [[1,7],[2,7],[1,8]]`, encoding column 0
(two distinct values) without `drop_first`, checked on the row
`[1,7]`. -/
theorem one_hot_encode_single_column_witness :
    (one_hot_encode ([[1, 7], [2, 7], [1, 8]] : List (List ℚ)) [0]
      false).length = 3 ∧
    (indicatorBlock
      (npUnique (colOf ([[1, 7], [2, 7], [1, 8]] : List (List ℚ)) 0))
      false (([1, 7] : List ℚ).getD 0 0)).length =
      (colOf ([[1, 7], [2, 7], [1, 8]] : List (List ℚ)) 0).toFinset.card ∧
    (indicatorBlock
      (npUnique (colOf ([[1, 7], [2, 7], [1, 8]] : List (List ℚ)) 0))
      false (([1, 7] : List ℚ).getD 0 0)).sum = 1 := by
  obtain ⟨h1, _h2, h3, h4⟩ := one_hot_encode_single_column
    ([[1, 7], [2, 7], [1, 8]] : List (List ℚ)) 0 false
  have hm : ([1, 7] : List ℚ) ∈
      ([[1, 7], [2, 7], [1, 8]] : List (List ℚ)) := by simp
  exact ⟨by simpa using h1, by simpa using h3 [1, 7] hm,
    by simpa using h4 [1, 7] hm⟩

theorem flatMap_singleton_eq_map {β γ : Type} (l : List β) (f : β → γ) :
    (l.flatMap fun x => [f x]) = l.map f := by
  induction l with
  | nil => rfl
  | cons a t ih => rw [List.flatMap_cons, List.map_cons, ih]; rfl

theorem flatMap_congr_left {β γ : Type} (l : List β) (f g : β → List γ)
    (h : ∀ a ∈ l, f a = g a) : l.flatMap f = l.flatMap g := by
  induction l with
  | nil => rfl
  | cons a t ih =>
    rw [List.flatMap_cons, List.flatMap_cons, h a (List.mem_cons_self a t),
      ih fun b hb => h b (List.mem_cons_of_mem a hb)]

theorem map_range_getD {α : Type} (r : List α) (d : α) :
    (List.range r.length).map (fun j => r.getD j d) = r := by
  induction r with
  | nil => rfl
  | cons a t ih =>
    rw [List.length_cons, List.range_succ_eq_map, List.map_cons,
      List.map_map]
    have hcomp : ((fun j => (a :: t).getD j d) ∘ Nat.succ) =
        fun j => t.getD j d := rfl
    rw [hcomp, ih]
    rfl

theorem range_flatMap_getD {α : Type} (r : List α) (d : α) :
    (List.range r.length).flatMap (fun j => [r.getD j d]) = r := by
  rw [flatMap_singleton_eq_map, map_range_getD]

theorem getD_splice_lt {α : Type} (r bl tl : List α) (c j : ℕ) (d : α)
    (hj : j < c) (hc : c ≤ r.length) :
    (r.take c ++ bl ++ tl).getD j d = r.getD j d := by
  have h1 : j < (r.take c ++ bl).length := by
    simp only [List.length_append, List.length_take]
    omega
  rw [List.getD_append _ _ _ _ h1]
  have h2 : j < (r.take c).length := by
    simp only [List.length_take]
    omega
  rw [List.getD_append _ _ _ _ h2]
  rw [List.getD_eq_get?, List.getD_eq_get?, List.get?_take hj]

theorem getD_splice_mid {α : Type} (r bl tl : List α) (c t : ℕ) (d : α)
    (hc : c ≤ r.length) (ht : t < bl.length) :
    (r.take c ++ bl ++ tl).getD (c + t) d = bl.getD t d := by
  have h1 : c + t < (r.take c ++ bl).length := by
    simp only [List.length_append, List.length_take]
    omega
  rw [List.getD_append _ _ _ _ h1]
  have h2 : (r.take c).length ≤ c + t := by
    simp only [List.length_take]
    omega
  rw [List.getD_append_right _ _ _ _ h2]
  have h3 : c + t - (r.take c).length = t := by
    simp only [List.length_take]
    omega
  rw [h3]

theorem getD_splice_right {α : Type} (r bl tl : List α) (c t : ℕ) (d : α)
    (hc : c ≤ r.length) :
    (r.take c ++ bl ++ tl).getD (c + bl.length + t) d = tl.getD t d := by
  have h2 : (r.take c ++ bl).length ≤ c + bl.length + t := by
    simp only [List.length_append, List.length_take]
    omega
  rw [List.getD_append_right _ _ _ _ h2]
  have h3 : c + bl.length + t - (r.take c ++ bl).length = t := by
    simp only [List.length_append, List.length_take]
    omega
  rw [h3]

/-- Modelled from the spec (§4.6): the row the encoder is described to
produce — every original column position in order, with each encoded
column replaced in place by its indicator block and every other column
untouched.  `U j` is the category list of column `j`; `w` the original
width.  This is the spec-side description that `one_hot_encode` is
compared against. -/
def specRow {α : Type} [DecidableEq α] [Zero α] [One α] (U : ℕ → List α)
    (idxs : List ℕ) (drop_first : Bool) (w : ℕ) (r : List α) : List α :=
  (List.range w).flatMap (fun j =>
    if j ∈ idxs then indicatorBlock (U j) drop_first (r.getD j 0)
    else [r.getD j 0])

theorem specRow_splice {α : Type} [DecidableEq α] [Zero α] [One α]
    (U U' : ℕ → List α) (rest : List ℕ) (df : Bool) (w c : ℕ)
    (r : List α) (hr : r.length = w) (hc : c < w)
    (hrest : ∀ j ∈ rest, j < c) (hU : ∀ j ∈ rest, U' j = U j) :
    specRow U' rest df
        (c + (indicatorBlock (U c) df (r.getD c 0)).length + (w - (c + 1)))
        (r.take c ++ indicatorBlock (U c) df (r.getD c 0) ++
          r.drop (c + 1)) =
      specRow U (c :: rest) df w r := by
  set bl := indicatorBlock (U c) df (r.getD c 0) with hbl
  set s := w - (c + 1) with hs
  have hcle : c ≤ r.length := by omega
  simp only [specRow]
  rw [Nat.add_assoc, List.range_add, List.flatMap_append, List.flatMap_map,
    List.range_add, List.flatMap_append, List.flatMap_map]
  have hw2 : w = c + (s + 1) := by omega
  conv_rhs => rw [hw2, List.range_add, List.range_succ_eq_map,
    List.flatMap_append, List.flatMap_map, List.flatMap_cons,
    List.flatMap_map]
  refine congrArg₂ (· ++ ·) ?_ (congrArg₂ (· ++ ·) ?_ ?_)
  · refine flatMap_congr_left _ _ _ ?_
    intro j hj
    have hjc : j < c := List.mem_range.mp hj
    have hrd : (r.take c ++ bl ++ r.drop (c + 1)).getD j 0 = r.getD j 0 :=
      getD_splice_lt r bl _ c j 0 hjc hcle
    by_cases hjr : j ∈ rest
    · rw [if_pos hjr, if_pos (List.mem_cons_of_mem c hjr), hU j hjr, hrd]
    · have hnotc : j ∉ c :: rest := by
        intro hmem
        rcases List.mem_cons.mp hmem with h | h
        · omega
        · exact hjr h
      rw [if_neg hjr, if_neg hnotc, hrd]
  · have hRHS : (if c + 0 ∈ c :: rest then
        indicatorBlock (U (c + 0)) df (r.getD (c + 0) 0)
        else [r.getD (c + 0) 0]) = bl := by
      rw [Nat.add_zero, if_pos (List.mem_cons_self c rest)]
    rw [hRHS]
    have hL2 : ∀ t ∈ List.range bl.length,
        (if c + t ∈ rest then indicatorBlock (U' (c + t)) df
            ((r.take c ++ bl ++ r.drop (c + 1)).getD (c + t) 0)
          else [(r.take c ++ bl ++ r.drop (c + 1)).getD (c + t) 0]) =
        [bl.getD t 0] := by
      intro t ht
      have h1 : c + t ∉ rest := fun hmem => by
        have := hrest _ hmem
        omega
      rw [if_neg h1]
      exact congrArg (fun z => [z])
        (getD_splice_mid r bl _ c t 0 hcle (List.mem_range.mp ht))
    exact (flatMap_congr_left _ _ _ hL2).trans (range_flatMap_getD bl 0)
  · refine flatMap_congr_left _ _ _ ?_
    intro t _
    have h1 : c + (bl.length + t) ∉ rest := fun hmem => by
      have := hrest _ hmem
      omega
    have h2 : c + Nat.succ t ∉ c :: rest := by
      intro hmem
      rcases List.mem_cons.mp hmem with h | h
      · omega
      · have := hrest _ h
        omega
    rw [if_neg h1, if_neg h2]
    refine congrArg (fun z => [z]) ?_
    have e1 : c + (bl.length + t) = c + bl.length + t := by omega
    rw [e1, getD_splice_right r bl _ c t 0 hcle]
    rw [List.getD_eq_get?, List.getD_eq_get?, List.get?_drop]
    have e2 : c + 1 + t = c + Nat.succ t := by omega
    rw [e2]

theorem foldl_encodeColumn_eq_specRow {α : Type} [LinearOrder α]
    [DecidableEq α] [Zero α] [One α] (df : Bool) (l : List ℕ) :
    ∀ (X : List (List α)) (w : ℕ), (∀ r ∈ X, r.length = w) →
      l.Sorted (· > ·) → (∀ i ∈ l, i < w) →
      l.foldl (fun acc index => encodeColumn acc index df) X =
        X.map (specRow (fun j => npUnique (colOf X j)) l df w) := by
  induction l with
  | nil =>
    intro X w hw _ _
    rw [List.foldl_nil]
    have hid : ∀ r ∈ X,
        specRow (fun j => npUnique (colOf X j)) [] df w r = r := by
      intro r hr
      have hfn : ∀ j ∈ List.range w,
          (if j ∈ ([] : List ℕ) then
            indicatorBlock (npUnique (colOf X j)) df (r.getD j 0)
          else [r.getD j 0]) = [r.getD j 0] :=
        fun j _ => if_neg (List.not_mem_nil j)
      rw [specRow, flatMap_congr_left _ _ _ hfn, ← hw r hr]
      exact range_flatMap_getD r 0
    exact ((List.map_congr_left hid).trans (List.map_id X)).symm
  | cons c rest ih =>
    intro X w hw hsort hlt
    obtain ⟨hgt, hrest_sorted⟩ := List.sorted_cons.mp hsort
    have hc : c < w := hlt c (List.mem_cons_self c rest)
    have hrlc : ∀ j ∈ rest, j < c := fun j hj => hgt j hj
    rw [List.foldl_cons]
    set U := fun j => npUnique (colOf X j) with hUdef
    have henc : encodeColumn X c df = X.map (fun r =>
        r.take c ++ indicatorBlock (U c) df (r.getD c 0) ++
          r.drop (c + 1)) := rfl
    set L := (if df then (npUnique (colOf X c)).length - 1
      else (npUnique (colOf X c)).length) with hLdef
    have hBlen : ∀ v : α,
        (indicatorBlock (npUnique (colOf X c)) df v).length = L := by
      intro v
      rw [indicatorBlock_length]
    set w' := c + L + (w - (c + 1)) with hwp
    have hw2 : ∀ r' ∈ encodeColumn X c df, r'.length = w' := by
      intro r' hr'
      rw [henc] at hr'
      obtain ⟨r, hr, rfl⟩ := List.mem_map.mp hr'
      have hrl := hw r hr
      simp only [List.length_append, List.length_take, List.length_drop,
        hBlen, hrl]
      omega
    have hlt' : ∀ i ∈ rest, i < w' := fun i hi => by
      have := hrlc i hi
      omega
    have hcol : ∀ j, j < c →
        colOf (encodeColumn X c df) j = colOf X j := by
      intro j hj
      rw [henc, colOf, colOf, List.map_map]
      apply List.map_congr_left
      intro r hr
      show (r.take c ++ indicatorBlock (U c) df (r.getD c 0) ++
        r.drop (c + 1)).getD j 0 = r.getD j 0
      refine getD_splice_lt r _ _ c j 0 hj ?_
      rw [hw r hr]
      omega
    rw [ih (encodeColumn X c df) w' hw2 hrest_sorted hlt']
    nth_rewrite 2 [henc]
    rw [List.map_map]
    apply List.map_congr_left
    intro r hr
    simp only [Function.comp]
    have hwfix : w' = c +
        (indicatorBlock (U c) df (r.getD c 0)).length + (w - (c + 1)) := by
      rw [hBlen]
    rw [hwfix]
    have hUagree : ∀ j ∈ rest,
        (fun j => npUnique (colOf (encodeColumn X c df) j)) j = U j := by
      intro j hj
      show npUnique (colOf (encodeColumn X c df) j) = U j
      rw [hcol j (hrlc j hj)]
    exact specRow_splice U
      (fun j => npUnique (colOf (encodeColumn X c df) j)) rest df w c r
      (hw r hr) hc hrlc hUagree

/-- C9: `one_hot_encode` is pure — it writes only a copy of its input —
and on valid distinct column indices every non-encoded column of `X`
appears unchanged at its relative position in the result, with each
indicator block occupying the position of the column it replaces: every
output row is exactly the input row with each encoded entry replaced in
place by its indicator block. -/
theorem one_hot_encode_preserves_columns {α : Type} [LinearOrder α]
    [DecidableEq α] [Zero α] [One α] (X : List (List α)) (w : ℕ)
    (idxs : List ℕ) (df : Bool) (hw : ∀ r ∈ X, r.length = w)
    (hnd : idxs.Nodup) (hlt : ∀ i ∈ idxs, i < w) :
    one_hot_encode X idxs df =
      X.map (specRow (fun j => npUnique (colOf X j)) idxs df w) := by
  rw [one_hot_encode]
  have hperm : (List.insertionSort (fun a b => a ≥ b) idxs).Perm idxs :=
    List.perm_insertionSort _ _
  have hsorted_ge : (List.insertionSort (fun a b => a ≥ b) idxs).Sorted
      (fun a b => a ≥ b) := List.sorted_insertionSort _ _
  have hnd' : (List.insertionSort (fun a b => a ≥ b) idxs).Nodup :=
    hperm.nodup_iff.mpr hnd
  have hsorted : (List.insertionSort (fun a b => a ≥ b) idxs).Sorted
      (· > ·) :=
    (hsorted_ge.and hnd').imp fun h => lt_of_le_of_ne h.1 (Ne.symm h.2)
  have hlt' : ∀ i ∈ List.insertionSort (fun a b => a ≥ b) idxs, i < w :=
    fun i hi => hlt i (hperm.mem_iff.mp hi)
  rw [foldl_encodeColumn_eq_specRow df _ X w hw hsorted hlt']
  apply List.map_congr_left
  intro r hr
  simp only [specRow]
  refine flatMap_congr_left _ _ _ ?_
  intro j _
  by_cases hj : j ∈ idxs
  · rw [if_pos (hperm.mem_iff.mpr hj), if_pos hj]
  · rw [if_neg (fun hmem => hj (hperm.mem_iff.mp hmem)), if_neg hj]

/-- Witness for C9 on `X = [[1,7],[2,7],[1,8]]` (width 2), encoding both
columns. -/
theorem one_hot_encode_preserves_columns_witness :
    one_hot_encode ([[1, 7], [2, 7], [1, 8]] : List (List ℚ)) [0, 1]
        false =
      ([[1, 7], [2, 7], [1, 8]] : List (List ℚ)).map
        (specRow (fun j =>
          npUnique (colOf ([[1, 7], [2, 7], [1, 8]] : List (List ℚ)) j))
          [0, 1] false 2) :=
  one_hot_encode_preserves_columns ([[1, 7], [2, 7], [1, 8]] :
    List (List ℚ)) 2 [0, 1] false (by decide) (by decide) (by decide)
